import Mathlib

/-!
Verification of the stratified train/test splitter (`scripts/prepare_data.py`)
and the decision-tree JSON exporter (`scripts/train_tree.py`).

The Python code is shallowly embedded over `List` and `Rat`:

* pandas `DataFrame` rows become a `List α`; the target column becomes a
  parallel `List Rat`.
* Machine floating point is modelled by exact rational arithmetic (`Rat`).
* The library calls that this repository delegates to (sklearn's
  `StratifiedShuffleSplit`, pandas `qcut`, `DataFrame.sample`) are not part of
  the repository sources; they are embedded following their documented
  behaviour, with the library's random choices replaced by a deterministic
  pseudo-random shuffle derived from the caller-supplied seed.  Every random
  decision is a pure function of that seed, which is exactly the reproducibility
  contract the scripts rely on.
-/

namespace RegTree

/-- One step of a linear congruential generator; stands in for the library's
seeded random number generator.  Only determinism in the seed matters. -/
def lcgNext (s : Nat) : Nat := (1103515245 * s + 12345) % 2147483648

/-- Fisher-Yates style extraction shuffle driven by `lcgNext`, with explicit
fuel (the list length).  Models a seeded random permutation. -/
def shuffleGo : Nat → Nat → List α → List α
  | 0, _, l => l
  | _ + 1, _, [] => []
  | fuel + 1, s, a :: t =>
    let l := a :: t
    let k := s % l.length
    l.getD k a :: shuffleGo fuel (lcgNext s) (l.take k ++ l.drop (k + 1))

/-- Seeded pseudo-random permutation of a list. -/
def pseudoShuffle (seed : Nat) (l : List α) : List α :=
  shuffleGo l.length (lcgNext seed) l

/-- `df.sample(n=n, random_state=seed)`: draw `n` rows without replacement,
modelled as a seeded shuffle followed by a prefix. -/
def sample (l : List α) (n seed : Nat) : List α :=
  (pseudoShuffle seed l).take n

/-- The post-split safety trim of `stratified_fixed_sizes`: downsample a subset
to `size` rows when it is larger, leave it untouched otherwise. -/
def trimTo (l : List α) (size seed : Nat) : List α :=
  if size < l.length then sample l size seed else l

/-- Largest element of a list of naturals (0 for the empty list). -/
def listMax (l : List Nat) : Nat := l.foldl max 0

/-- Stratification label of record `i` (its bin code). -/
def binAt (bins : List Nat) (i : Nat) : Nat := bins.getD i 0

/-- Record indices carrying bin code `c`, in input order; models sklearn's
per-class index groups obtained from a stable argsort of the labels. -/
def classOf (bins : List Nat) (c : Nat) : List Nat :=
  (List.range bins.length).filter (fun i => binAt bins i == c)

/-- All per-class index groups, one for each possible bin code. -/
def classLists (bins : List Nat) : List (List Nat) :=
  (List.range (listMax bins + 1)).map (classOf bins)

/-- Distribute `need` leftover draws, one per entry whose fractional remainder
is positive.  Entries are triples (floored allocation, remainder, class count).
sklearn's `_approximate_mode` gives the extras to the largest remainders,
breaking ties with the RNG; which positive-remainder entries receive them does
not affect any property stated below, so the embedding uses list order. -/
def addExtras : List (Nat × Rat × Nat) → Nat → List Nat
  | [], _ => []
  | p :: rest, 0 => p.1 :: addExtras rest 0
  | p :: rest, need + 1 =>
    if 0 < p.2.1 then (p.1 + 1) :: addExtras rest need
    else p.1 :: addExtras rest (need + 1)

/-- The exact proportional share `c * nDraws / total` of a class of size `c`. -/
def propShare (total c nDraws : Nat) : Rat :=
  (c : Rat) * (nDraws : Rat) / (total : Rat)

/-- Floored share, fractional remainder, and size of each class. -/
def modeInfo (counts : List Nat) (nDraws : Nat) : List (Nat × Rat × Nat) :=
  counts.map (fun c : Nat =>
    (⌊propShare counts.sum c nDraws⌋₊,
     propShare counts.sum c nDraws - (⌊propShare counts.sum c nDraws⌋₊ : Rat), c))

/-- sklearn's `_approximate_mode counts nDraws`: allocate `nDraws` draws to the
classes proportionally to `counts`, flooring and then distributing the
remaining draws to classes with positive fractional part. -/
def approximateMode (counts : List Nat) (nDraws : Nat) : List Nat :=
  addExtras (modeInfo counts nDraws)
    (nDraws - ((modeInfo counts nDraws).map (fun p => p.1)).sum)

/-- Elementwise `class_counts - n_i`: what is left of each class after the
train allocation has been removed. -/
def subCounts : List Nat → List Nat → List Nat
  | c :: cs, k :: ks => (c - k) :: subCounts cs ks
  | _, _ => []

/-- sklearn's per-class selection loop: shuffle each class's indices with the
seeded generator, send the first `k` to the train side and the next `t` to the
test side, and concatenate over classes. -/
def splitByClass (seed : Nat) : List (List Nat) → List Nat → List Nat → List Nat × List Nat
  | l :: ls, k :: ks, t :: ts =>
    ((pseudoShuffle seed l).take k ++ (splitByClass seed ls ks ts).1,
     (((pseudoShuffle seed l).drop k).take t ++ (splitByClass seed ls ks ts).2))
  | _, _, _ => ([], [])

/-- Model of one split drawn from sklearn's
`StratifiedShuffleSplit(n_splits=1, train_size=nTrain/n, test_size=nTest/n)`:
group record indices by bin code, allocate `nTrain` and `nTest` draws per class
with `approximateMode`, select disjoint per-class segments of a seeded
shuffle, and shuffle the concatenated picks.  Returns (train indices, test
indices). -/
def stratifiedShuffleSplit (bins : List Nat) (nTrain nTest seed : Nat) :
    List Nat × List Nat :=
  (pseudoShuffle (lcgNext seed)
    (splitByClass seed (classLists bins)
      (approximateMode ((classLists bins).map List.length) nTrain)
      (approximateMode
        (subCounts ((classLists bins).map List.length)
          (approximateMode ((classLists bins).map List.length) nTrain))
        nTest)).1,
   pseudoShuffle (lcgNext (lcgNext seed))
    (splitByClass seed (classLists bins)
      (approximateMode ((classLists bins).map List.length) nTrain)
      (approximateMode
        (subCounts ((classLists bins).map List.length)
          (approximateMode ((classLists bins).map List.length) nTrain))
        nTest)).2)

/-- The target values in ascending order. -/
def sortedVals (y : List Rat) : List Rat := y.insertionSort (fun a b => a ≤ b)

/-- Linear-interpolation quantile of the sorted values `s` at probability
`num / den` (numpy's default method, used by pandas `qcut`):
position `h = (num/den) * (n-1)`, value `s[⌊h⌋] + frac(h) * (s[⌊h⌋+1] - s[⌊h⌋])`. -/
def quantileAt (s : List Rat) (num den : Nat) : Rat :=
  (s.getD ⌊(num : Rat) * ((s.length - 1 : Nat) : Rat) / (den : Rat)⌋₊ 0) +
    ((num : Rat) * ((s.length - 1 : Nat) : Rat) / (den : Rat) -
      (⌊(num : Rat) * ((s.length - 1 : Nat) : Rat) / (den : Rat)⌋₊ : Rat)) *
    ((s.getD (⌊(num : Rat) * ((s.length - 1 : Nat) : Rat) / (den : Rat)⌋₊ + 1)
        (s.getD ⌊(num : Rat) * ((s.length - 1 : Nat) : Rat) / (den : Rat)⌋₊ 0)) -
      (s.getD ⌊(num : Rat) * ((s.length - 1 : Nat) : Rat) / (den : Rat)⌋₊ 0))

/-- The `n_bins + 1` quantile edges at probabilities `0, 1/n_bins, ..., 1`. -/
def quantEdges (y : List Rat) (n_bins : Nat) : List Rat :=
  (List.range (n_bins + 1)).map (fun i => quantileAt (sortedVals y) i n_bins)

/-- `np.unique` of the edges: sorted with duplicates dropped — this is where
`pd.qcut(..., duplicates="drop")` lets the effective bin count shrink. -/
def uniqueEdges (y : List Rat) (n_bins : Nat) : List Rat :=
  ((quantEdges y n_bins).insertionSort (fun a b => a ≤ b)).dedup

/-- The effective number of bins `B`: one fewer than the surviving edges. -/
def effectiveBinCount (y : List Rat) (n_bins : Nat) : Nat :=
  (uniqueEdges y n_bins).length - 1

/-- Interval code of value `v` against the deduplicated edges: the number of
interior edges strictly below `v`.  This matches `searchsorted(side="left")`
minus one with the `include_lowest` adjustment of `pd.cut`: values in
`(e_j, e_(j+1)]` receive code `j`, and values at the lowest edge receive 0. -/
def binCodeOf (uniq : List Rat) (v : Rat) : Nat :=
  (uniq.drop 1).countP (fun e => decide (e < v))

/-- `make_stratify_bins` from `scripts/prepare_data.py`: quantile-bin the
target into (approximately) equal-frequency bins with `pd.qcut(y, q=n_bins,
duplicates="drop")` and return the integer category codes. -/
def make_stratify_bins (y : List Rat) (n_bins : Nat) : List Nat :=
  y.map (binCodeOf (uniqueEdges y n_bins))

/-- `stratified_fixed_sizes` from `scripts/prepare_data.py`.

The Python function asserts `train_size > 0 and test_size > 0` and
`train_size + test_size <= n_total` before any other work (a failed `assert`
is modelled as `none`), computes the stratification bins, hands the
proportions `train_size/n_total` and `test_size/n_total` to
`StratifiedShuffleSplit` (which floors the train proportion and ceils the
test proportion back to row counts — exact arithmetic here, where machine
floats may be off by one, which is exactly what the final trim guards),
gathers the selected rows, and downsamples either subset that exceeds its
requested size (`df.sample(n=..., random_state=seed)`, the test side using
`seed + 1`).  Sizes are naturals: a non-positive Python argument is `0`. -/
def stratified_fixed_sizes (rows : List α) (y : List Rat)
    (train_size test_size random_state n_bins : Nat) :
    Option (List α × List α) :=
  if 0 < train_size ∧ 0 < test_size then
    if train_size + test_size ≤ rows.length then
      some
        (trimTo
          ((stratifiedShuffleSplit (make_stratify_bins y n_bins)
              ⌊(train_size : Rat) / (rows.length : Rat) * (rows.length : Rat)⌋₊
              ⌈(test_size : Rat) / (rows.length : Rat) * (rows.length : Rat)⌉₊
              random_state).1.filterMap (fun i => rows[i]?))
          train_size random_state,
         trimTo
          ((stratifiedShuffleSplit (make_stratify_bins y n_bins)
              ⌊(train_size : Rat) / (rows.length : Rat) * (rows.length : Rat)⌋₊
              ⌈(test_size : Rat) / (rows.length : Rat) * (rows.length : Rat)⌉₊
              random_state).2.filterMap (fun i => rows[i]?))
          test_size (random_state + 1))
    else none
  else none

/-- The parallel node arrays of a fitted `DecisionTreeRegressor` (`tree.tree_`),
indexed by node id.  `value i` is the scalar `sk.value[i][0][0]` (single-output
regression).  Array cells beyond `node_count` are never consulted. -/
structure SkTree where
  node_count : Nat
  children_left : Nat → Nat
  children_right : Nat → Nat
  feature : Nat → Nat
  threshold : Nat → Rat
  n_node_samples : Nat → Nat
  impurity : Nat → Rat
  value : Nat → Rat

/-- A fitted tree is well formed when every split node's feature index is in
range for the feature list used at fit time (sklearn guarantees this). -/
def SkTree.WellFormed (sk : SkTree) (nFeatures : Nat) : Prop :=
  ∀ i, i < sk.node_count → sk.children_left i ≠ sk.children_right i →
    sk.feature i < nFeatures

/-- One exported node record.  Keys that `node_dict` only adds for split nodes
(`feature`, `featureIndex`, `threshold`, `left`, `right`) are `Option`s; `none`
models the key being absent from the emitted dictionary. -/
structure NodeDict (ν : Type) where
  id : Nat
  isLeaf : Bool
  nSamples : Nat
  impurity : Rat
  value : Rat
  feature : Option ν
  featureIndex : Option Nat
  threshold : Option Rat
  left : Option Nat
  right : Option Nat
deriving DecidableEq

/-- `node_dict` from `scripts/train_tree.py`: a node is a leaf iff its left and
right child ids coincide; split nodes additionally carry the split keys.
(The Python `feature_names[feat_idx]` raises on an out-of-range index; the
embedding makes the lookup an `Option`, and well-formed trees always hit
`some`.) -/
def node_dict (sk : SkTree) (feature_names : List ν) (i : Nat) : NodeDict ν :=
  if sk.children_left i = sk.children_right i then
    { id := i, isLeaf := true, nSamples := sk.n_node_samples i,
      impurity := sk.impurity i, value := sk.value i,
      feature := none, featureIndex := none, threshold := none,
      left := none, right := none }
  else
    { id := i, isLeaf := false, nSamples := sk.n_node_samples i,
      impurity := sk.impurity i, value := sk.value i,
      feature := feature_names[sk.feature i]?,
      featureIndex := some (sk.feature i),
      threshold := some (sk.threshold i),
      left := some (sk.children_left i),
      right := some (sk.children_right i) }

/-- The exported tree JSON: a root id and the node list. -/
structure TreeJson (ν : Type) where
  root : Nat
  nodes : List (NodeDict ν)
deriving DecidableEq

/-- `export_tree_json` from `scripts/train_tree.py`: emit `node_dict i` for
every `i` in `range(node_count)` and root id 0. -/
def export_tree_json (sk : SkTree) (feature_names : List ν) : TreeJson ν :=
  { root := 0, nodes := (List.range sk.node_count).map (node_dict sk feature_names) }

/-- Column lookup `df[name]` on a column-oriented frame ([] if absent). -/
def dfColumn [DecidableEq ν] (df : List (ν × List Rat)) (name : ν) : List Rat :=
  ((df.find? (fun c => decide (c.1 = name))).map (fun c => c.2)).getD []

/-- `Series.min()` (0 stands in for the NaN pandas returns on an empty
column; the comparisons proved below hold for it as well). -/
def seriesMin : List Rat → Rat
  | [] => 0
  | x :: t => t.foldl min x

/-- `Series.max()` (empty column as in `seriesMin`). -/
def seriesMax : List Rat → Rat
  | [] => 0
  | x :: t => t.foldl max x

/-- `Series.median()`: middle element of the sorted values, or the mean of the
two middle elements for an even count. -/
def seriesMedian (xs : List Rat) : Rat :=
  if (sortedVals xs).length % 2 = 1 then (sortedVals xs).getD ((sortedVals xs).length / 2) 0
  else ((sortedVals xs).getD ((sortedVals xs).length / 2 - 1) 0 +
        (sortedVals xs).getD ((sortedVals xs).length / 2) 0) / 2

/-- The per-column summary `{min, max, median}` written to `meta.json`. -/
structure Stats where
  min : Rat
  max : Rat
  median : Rat
deriving DecidableEq

/-- Build one `{min, max, median}` entry. -/
def summaryStats (xs : List Rat) : Stats :=
  { min := seriesMin xs, max := seriesMax xs, median := seriesMedian xs }

/-- The `meta.json` payload (the hyperparameter block is omitted: it is copied
verbatim from the CLI arguments and no claim concerns it). -/
structure MetaJson (ν : Type) where
  featureNames : List ν
  target : ν
  nTrain : Nat
  featureStats : List (ν × Stats)
  targetStats : Stats
deriving DecidableEq

/-- `main` from `scripts/train_tree.py`, between CSV load and file writes:
derive `feature_names` as all columns except the target in column order, fit
on exactly the non-target columns (`df.drop(columns=[target_col])`), export
the tree against `feature_names`, and assemble `meta.json` from the same
list.  The external fitting routine is a parameter.  `nTrain = len(df)` is
read off the target column. -/
def trainMain [DecidableEq ν] (df : List (ν × List Rat)) (target : ν)
    (fit : List (ν × List Rat) → List Rat → SkTree) : TreeJson ν × MetaJson ν :=
  (export_tree_json (fit (df.filter (fun c => decide (c.1 ≠ target))) (dfColumn df target))
     ((df.map Prod.fst).filter (fun s => decide (s ≠ target))),
   { featureNames := (df.map Prod.fst).filter (fun s => decide (s ≠ target)),
     target := target,
     nTrain := (dfColumn df target).length,
     featureStats := ((df.map Prod.fst).filter (fun s => decide (s ≠ target))).map
       (fun name => (name, summaryStats (dfColumn df name))),
     targetStats := summaryStats (dfColumn df target) })

/-- A concrete 3-node fitted tree: node 0 splits on feature 0 into the two
leaves 1 and 2 (leaves carry equal child ids, the sklearn sentinel). -/
def skTreeEx : SkTree :=
  { node_count := 3,
    children_left := fun i => if i = 0 then 1 else 7,
    children_right := fun i => if i = 0 then 2 else 7,
    feature := fun _ => 0,
    threshold := fun _ => 5/2,
    n_node_samples := fun i => if i = 0 then 10 else 5,
    impurity := fun _ => 1/4,
    value := fun i => (i : Rat) }

/-- An arbitrary external fitting routine for witnesses: ignores the data and
returns the concrete 3-node tree. -/
def fitEx : List (Nat × List Rat) → List Rat → SkTree := fun _ _ => skTreeEx

/-- A tiny concrete two-column frame (feature column 1, target column 0). -/
def dfEx : List (Nat × List Rat) := [(1, [3, 1, 2]), (0, [5, 4, 6])]

theorem shuffleGo_perm : ∀ (fuel s : Nat) (l : List α), List.Perm (shuffleGo fuel s l) l := by
  intro fuel
  induction fuel with
  | zero => intro s l; simp [shuffleGo]
  | succ n ih =>
    intro s l
    match l with
    | [] => simp [shuffleGo]
    | a :: t =>
      simp only [shuffleGo]
      set l := a :: t with hl
      have hlen : 0 < l.length := by simp [hl]
      set k := s % l.length with hk
      have hklt : k < l.length := Nat.mod_lt _ hlen
      have hgd : l.getD k a = l[k] := List.getD_eq_getElem l a hklt
      have hdecomp : l = l.take k ++ l[k] :: l.drop (k + 1) := by
        conv_lhs => rw [← List.take_append_drop k l]
        rw [List.drop_eq_getElem_cons hklt]
      refine List.Perm.trans (List.Perm.cons _ (ih _ _)) ?_
      rw [hgd]
      calc List.Perm (l[k] :: (l.take k ++ l.drop (k + 1)))
            (l.take k ++ l[k] :: l.drop (k + 1)) := List.perm_middle.symm
        _ = l := hdecomp.symm

theorem pseudoShuffle_perm (seed : Nat) (l : List α) :
    List.Perm (pseudoShuffle seed l) l := shuffleGo_perm _ _ l

theorem pseudoShuffle_length (seed : Nat) (l : List α) :
    (pseudoShuffle seed l).length = l.length := (pseudoShuffle_perm seed l).length_eq

theorem pseudoShuffle_mem {seed : Nat} {l : List α} {x : α} :
    x ∈ pseudoShuffle seed l ↔ x ∈ l := (pseudoShuffle_perm seed l).mem_iff

theorem pseudoShuffle_nodup {seed : Nat} {l : List α} (h : l.Nodup) :
    (pseudoShuffle seed l).Nodup := (pseudoShuffle_perm seed l).nodup_iff.2 h

theorem trimTo_length (l : List α) (s seed : Nat) :
    (trimTo l s seed).length = min l.length s := by
  unfold trimTo sample
  split
  · rw [List.length_take, pseudoShuffle_length]
    omega
  · omega

theorem trimTo_eq_of_le (l : List α) (s seed : Nat) (h : l.length ≤ s) :
    trimTo l s seed = l := by
  unfold trimTo
  rw [if_neg (by omega)]

theorem trimTo_subset {l : List α} {s seed : Nat} {x : α} (h : x ∈ trimTo l s seed) : x ∈ l := by
  unfold trimTo sample at h
  split at h
  · exact pseudoShuffle_mem.1 (List.take_subset _ _ h)
  · exact h

theorem le_foldl_max (l : List Nat) (b : Nat) : b ≤ l.foldl max b := by
  induction l generalizing b with
  | nil => simp
  | cons x t ih => exact le_trans (le_max_left b x) (ih (max b x))

theorem foldl_max_le_mem {l : List Nat} {a : Nat} (h : a ∈ l) (b : Nat) :
    a ≤ l.foldl max b := by
  induction l generalizing b with
  | nil => cases h
  | cons x t ih =>
    rcases List.mem_cons.1 h with rfl | hmem
    · exact le_trans (le_max_right b a) (le_foldl_max t (max b a))
    · exact ih hmem _

theorem le_listMax {l : List Nat} {a : Nat} (h : a ∈ l) : a ≤ listMax l :=
  foldl_max_le_mem h 0

theorem binAt_lt (bins : List Nat) {i : Nat} (h : i < bins.length) :
    binAt bins i < listMax bins + 1 := by
  have hmem : binAt bins i ∈ bins := by
    unfold binAt
    rw [List.getD_eq_getElem _ _ h]
    exact List.getElem_mem h
  exact Nat.lt_succ_of_le (le_listMax hmem)

theorem mem_classOf {bins : List Nat} {c i : Nat} :
    i ∈ classOf bins c ↔ i < bins.length ∧ binAt bins i = c := by
  unfold classOf
  simp [List.mem_filter, List.mem_range]

theorem classOf_nodup (bins : List Nat) (c : Nat) : (classOf bins c).Nodup :=
  (List.nodup_range _).filter _

theorem classLists_forall_nodup (bins : List Nat) :
    ∀ l ∈ classLists bins, l.Nodup := by
  intro l hl
  rcases List.mem_map.1 hl with ⟨c, _, rfl⟩
  exact classOf_nodup bins c

theorem classLists_mem_lt (bins : List Nat) :
    ∀ l ∈ classLists bins, ∀ i ∈ l, i < bins.length := by
  intro l hl i hi
  rcases List.mem_map.1 hl with ⟨c, _, rfl⟩
  exact (mem_classOf.1 hi).1

theorem classLists_pairwise_disjoint (bins : List Nat) :
    List.Pairwise List.Disjoint (classLists bins) := by
  unfold classLists
  refine List.Pairwise.map _ ?_ (List.nodup_range _)
  intro c d hcd i hic hid
  exact hcd ((mem_classOf.1 hic).2 ▸ (mem_classOf.1 hid).2 ▸ rfl)

theorem sum_map_add_nat (l : List γ) (f g : γ → Nat) :
    (l.map (fun x => f x + g x)).sum = (l.map f).sum + (l.map g).sum := by
  induction l with
  | nil => simp
  | cons a t ih => simp [ih]; omega

theorem sum_range_ite_eq {B v : Nat} (h : v < B) :
    ((List.range B).map (fun c => if v == c then 1 else 0)).sum = 1 := by
  induction B with
  | zero => omega
  | succ n ih =>
    rw [List.range_succ, List.map_append, List.sum_append]
    rcases Nat.lt_or_ge v n with hv | hv
    · rw [ih hv]
      have hne : v ≠ n := by omega
      simp [hne]
    · have hvn : v = n := by omega
      subst hvn
      have hz : ((List.range v).map (fun c => if v == c then 1 else 0)).sum = 0 := by
        apply List.sum_eq_zero
        intro x hx
        rcases List.mem_map.1 hx with ⟨c, hc, rfl⟩
        have hne : (v == c) = false :=
          beq_eq_false_iff_ne.2 (Nat.ne_of_gt (List.mem_range.1 hc))
        simp [hne]
      rw [hz]
      simp

theorem sum_countP_range (n B : Nat) (f : Nat → Nat) (hf : ∀ i, i < n → f i < B) :
    ((List.range B).map (fun c => (List.range n).countP (fun i => f i == c))).sum = n := by
  induction n with
  | zero => simp
  | succ m ih =>
    have hrec := ih (fun i hi => hf i (Nat.lt_succ_of_lt hi))
    rw [List.range_succ]
    have hsplit : ∀ c : Nat, (List.range m ++ [m]).countP (fun i => f i == c)
        = (List.range m).countP (fun i => f i == c) + (if f m == c then 1 else 0) := by
      intro c
      rw [List.countP_append]
      simp [List.countP_cons]
    calc ((List.range B).map (fun c => (List.range m ++ [m]).countP (fun i => f i == c))).sum
        = ((List.range B).map (fun c =>
            (List.range m).countP (fun i => f i == c) + (if f m == c then 1 else 0))).sum := by
          congr 1
          exact List.map_congr_left (fun c _ => hsplit c)
      _ = ((List.range B).map (fun c => (List.range m).countP (fun i => f i == c))).sum
          + ((List.range B).map (fun c => if f m == c then 1 else 0)).sum :=
          sum_map_add_nat _ _ _
      _ = m + 1 := by rw [hrec, sum_range_ite_eq (hf m (Nat.lt_succ_self m))]

theorem classLists_length_sum (bins : List Nat) :
    ((classLists bins).map List.length).sum = bins.length := by
  unfold classLists classOf
  rw [List.map_map]
  have hcong : ∀ c ∈ List.range (listMax bins + 1),
      (List.length ∘ fun c => (List.range bins.length).filter (fun i => binAt bins i == c)) c
      = (List.range bins.length).countP (fun i => binAt bins i == c) := by
    intro c _
    simp [List.countP_eq_length_filter]
  rw [List.map_congr_left hcong]
  exact sum_countP_range bins.length (listMax bins + 1) (binAt bins)
    (fun i hi => binAt_lt bins hi)

theorem addExtras_zero (l : List (Nat × Rat × Nat)) :
    addExtras l 0 = l.map (fun p => p.1) := by
  induction l with
  | nil => rfl
  | cons p rest ih => simp [addExtras, ih]

theorem addExtras_length (l : List (Nat × Rat × Nat)) (need : Nat) :
    (addExtras l need).length = l.length := by
  induction l generalizing need with
  | nil => rfl
  | cons p rest ih =>
    match need with
    | 0 => simp [addExtras, ih]
    | need + 1 =>
      unfold addExtras
      split
      · simp [ih]
      · simp [ih]

theorem addExtras_sum (l : List (Nat × Rat × Nat)) (need : Nat)
    (h : need ≤ l.countP (fun p => decide (0 < p.2.1))) :
    (addExtras l need).sum = (l.map (fun p => p.1)).sum + need := by
  induction l generalizing need with
  | nil =>
    simp at h
    simp [addExtras, h]
  | cons p rest ih =>
    match need with
    | 0 => simp [addExtras, addExtras_zero]
    | need + 1 =>
      unfold addExtras
      rw [List.countP_cons] at h
      split
      · rename_i hpos
        have hp : (decide (0 < p.2.1)) = true := decide_eq_true hpos
        rw [hp] at h
        simp at h
        have hrest : need ≤ rest.countP (fun p => decide (0 < p.2.1)) := by omega
        simp only [List.sum_cons, List.map_cons]
        rw [ih need hrest]
        omega
      · rename_i hneg
        have hp : (decide (0 < p.2.1)) = false := decide_eq_false hneg
        rw [hp] at h
        simp at h
        have hrest : need + 1 ≤ rest.countP (fun p => decide (0 < p.2.1)) := by
          exact le_trans h (Nat.le_refl _)
        simp only [List.sum_cons, List.map_cons]
        rw [ih (need + 1) hrest]
        omega

theorem addExtras_bound (l : List (Nat × Rat × Nat)) (need : Nat)
    (h : ∀ p ∈ l, p.1 ≤ p.2.2 ∧ (0 < p.2.1 → p.1 + 1 ≤ p.2.2)) :
    List.Forall₂ (fun a b => a ≤ b) (addExtras l need) (l.map (fun p => p.2.2)) := by
  induction l generalizing need with
  | nil => simp [addExtras]
  | cons p rest ih =>
    have hp := h p (List.mem_cons_self p rest)
    have hrest : ∀ q ∈ rest, q.1 ≤ q.2.2 ∧ (0 < q.2.1 → q.1 + 1 ≤ q.2.2) :=
      fun q hq => h q (List.mem_cons_of_mem p hq)
    match need with
    | 0 =>
      simp only [addExtras, List.map_cons]
      exact List.Forall₂.cons hp.1 (ih 0 hrest)
    | need + 1 =>
      unfold addExtras
      split
      · rename_i hpos
        simp only [List.map_cons]
        exact List.Forall₂.cons (hp.2 hpos) (ih need hrest)
      · simp only [List.map_cons]
        exact List.Forall₂.cons hp.1 (ih (need + 1) hrest)

theorem sum_map_cast_mul (l : List Nat) (r : Rat) :
    (l.map (fun c : Nat => (c : Rat) * r)).sum = (l.sum : Rat) * r := by
  induction l with
  | nil => simp
  | cons a t ih => simp [ih, add_mul]

theorem rat_sum_le_countP (l : List Rat) (h : ∀ r ∈ l, 0 ≤ r ∧ r < 1) :
    l.sum ≤ ((l.countP (fun r => decide (0 < r)) : Nat) : Rat) := by
  induction l with
  | nil => simp
  | cons r t ih =>
    have hr := h r (List.mem_cons_self r t)
    have ht := ih (fun x hx => h x (List.mem_cons_of_mem r hx))
    rw [List.countP_cons, List.sum_cons]
    by_cases hpos : 0 < r
    · have hd : (decide (0 < r)) = true := decide_eq_true hpos
      rw [hd, if_pos rfl]
      push_cast
      linarith
    · have hr0 : r = 0 := le_antisymm (not_lt.1 hpos) hr.1
      have hd : (decide (0 < r)) = false := decide_eq_false hpos
      rw [hd, if_neg Bool.false_ne_true]
      rw [hr0, zero_add, Nat.add_zero]
      exact ht

theorem approximateMode_length (counts : List Nat) (nDraws : Nat) :
    (approximateMode counts nDraws).length = counts.length := by
  unfold approximateMode modeInfo
  rw [addExtras_length, List.length_map]

theorem sum_map_cast (l : List Nat) (f : Nat → Nat) :
    (((l.map f).sum : Nat) : Rat) = (l.map (fun c : Nat => ((f c : Nat) : Rat))).sum := by
  induction l with
  | nil => simp
  | cons a t ih => simp [ih]

theorem sum_map_sub_rat (l : List Nat) (f g : Nat → Rat) :
    (l.map (fun c : Nat => f c - g c)).sum = (l.map f).sum - (l.map g).sum := by
  induction l with
  | nil => simp
  | cons a t ih => simp [ih]; ring

theorem propShare_nonneg (total c nDraws : Nat) : 0 ≤ propShare total c nDraws := by
  unfold propShare
  positivity

theorem propShare_sum (counts : List Nat) (nDraws : Nat) (hT : 0 < counts.sum) :
    (counts.map (fun c : Nat => propShare counts.sum c nDraws)).sum = (nDraws : Rat) := by
  unfold propShare
  have hrw : ∀ c : Nat, (c : Rat) * (nDraws : Rat) / (counts.sum : Rat)
      = (c : Rat) * ((nDraws : Rat) / (counts.sum : Rat)) := fun c => mul_div_assoc _ _ _
  calc (counts.map (fun c : Nat => (c : Rat) * (nDraws : Rat) / (counts.sum : Rat))).sum
      = (counts.map (fun c : Nat =>
          (c : Rat) * ((nDraws : Rat) / (counts.sum : Rat)))).sum := by
        congr 1
        exact List.map_congr_left (fun c _ => hrw c)
    _ = (counts.sum : Rat) * ((nDraws : Rat) / (counts.sum : Rat)) :=
        sum_map_cast_mul counts _
    _ = (nDraws : Rat) := by
        rw [mul_div_assoc']
        rw [mul_comm]
        rw [mul_div_assoc]
        rw [div_self (by exact_mod_cast hT.ne')]
        ring

theorem propShare_le_self (total c nDraws : Nat) (hT : 0 < total) (hD : nDraws ≤ total) :
    propShare total c nDraws ≤ (c : Rat) := by
  unfold propShare
  rw [mul_div_assoc]
  have h1 : (nDraws : Rat) / (total : Rat) ≤ 1 := by
    rw [div_le_one (by exact_mod_cast hT)]
    exact_mod_cast hD
  exact mul_le_of_le_one_right (by positivity) h1

theorem floorSum_le (counts : List Nat) (nDraws : Nat) (hT : 0 < counts.sum) :
    ((modeInfo counts nDraws).map (fun p => p.1)).sum ≤ nDraws := by
  have hcast : ((((modeInfo counts nDraws).map (fun p => p.1)).sum : Nat) : Rat)
      ≤ (nDraws : Rat) := by
    unfold modeInfo
    rw [List.map_map]
    have heq : (List.map ((fun p : Nat × Rat × Nat => p.1) ∘ fun c : Nat =>
        (⌊propShare counts.sum c nDraws⌋₊,
         propShare counts.sum c nDraws - (⌊propShare counts.sum c nDraws⌋₊ : Rat), c)) counts)
        = counts.map (fun c : Nat => ⌊propShare counts.sum c nDraws⌋₊) := rfl
    rw [heq, sum_map_cast]
    calc (counts.map (fun c : Nat => ((⌊propShare counts.sum c nDraws⌋₊ : Nat) : Rat))).sum
        ≤ (counts.map (fun c : Nat => propShare counts.sum c nDraws)).sum := by
          apply List.sum_le_sum
          intro c _
          exact Nat.floor_le (propShare_nonneg _ _ _)
      _ = (nDraws : Rat) := propShare_sum counts nDraws hT
  exact_mod_cast hcast

theorem approximateMode_sum (counts : List Nat) (nDraws : Nat)
    (hT : 0 < counts.sum) (hD : nDraws ≤ counts.sum) :
    (approximateMode counts nDraws).sum = nDraws := by
  set info := modeInfo counts nDraws with hinfo
  set S := (info.map (fun p => p.1)).sum with hS
  have hSle : S ≤ nDraws := floorSum_le counts nDraws hT
  have hneed : nDraws - S ≤ info.countP (fun p => decide (0 < p.2.1)) := by
    have hrem : (info.map (fun p => p.2.1)).sum = (nDraws : Rat) - (S : Rat) := by
      rw [hinfo]
      unfold modeInfo
      rw [List.map_map]
      have heq : (List.map ((fun p : Nat × Rat × Nat => p.2.1) ∘ fun c : Nat =>
          (⌊propShare counts.sum c nDraws⌋₊,
           propShare counts.sum c nDraws - (⌊propShare counts.sum c nDraws⌋₊ : Rat), c)) counts)
          = counts.map (fun c : Nat =>
            propShare counts.sum c nDraws - ((⌊propShare counts.sum c nDraws⌋₊ : Nat) : Rat)) :=
        rfl
      rw [heq, sum_map_sub_rat, propShare_sum counts nDraws hT]
      have hfl : S = ((counts.map (fun c : Nat => ⌊propShare counts.sum c nDraws⌋₊)).sum : Nat) := by
        rw [hS, hinfo]
        unfold modeInfo
        rw [List.map_map]
        rfl
      rw [hfl, sum_map_cast]
    have hbound : ∀ r ∈ info.map (fun p => p.2.1), 0 ≤ r ∧ r < 1 := by
      intro r hr
      rcases List.mem_map.1 hr with ⟨p, hp, rfl⟩
      rw [hinfo] at hp
      unfold modeInfo at hp
      rcases List.mem_map.1 hp with ⟨c, _, rfl⟩
      constructor
      · simp only
        have := Nat.floor_le (propShare_nonneg counts.sum c nDraws)
        linarith
      · simp only
        have := Nat.lt_floor_add_one (propShare counts.sum c nDraws)
        linarith
    have hsum_le := rat_sum_le_countP (info.map (fun p => p.2.1)) hbound
    rw [hrem] at hsum_le
    have hcount : (info.map (fun p => p.2.1)).countP (fun r => decide (0 < r))
        = info.countP (fun p => decide (0 < p.2.1)) := by
      rw [List.countP_map]
      rfl
    rw [hcount] at hsum_le
    have hq : ((nDraws - S : Nat) : Rat)
        ≤ ((info.countP (fun p => decide (0 < p.2.1)) : Nat) : Rat) := by
      rw [Nat.cast_sub hSle]
      exact hsum_le
    exact_mod_cast hq
  have := addExtras_sum info (nDraws - S) hneed
  unfold approximateMode
  rw [← hinfo, ← hS, this]
  omega

theorem approximateMode_le (counts : List Nat) (nDraws : Nat)
    (hT : 0 < counts.sum) (hD : nDraws ≤ counts.sum) :
    List.Forall₂ (fun a b => a ≤ b) (approximateMode counts nDraws) counts := by
  set info := modeInfo counts nDraws with hinfo
  have hmap : info.map (fun p => p.2.2) = counts := by
    rw [hinfo]
    unfold modeInfo
    rw [List.map_map]
    exact (List.map_congr_left (fun c _ => rfl)).trans (List.map_id counts)
  have hcond : ∀ p ∈ info, p.1 ≤ p.2.2 ∧ (0 < p.2.1 → p.1 + 1 ≤ p.2.2) := by
    intro p hp
    rw [hinfo] at hp
    unfold modeInfo at hp
    rcases List.mem_map.1 hp with ⟨c, _, rfl⟩
    have hshare := propShare_le_self counts.sum c nDraws hT hD
    constructor
    · simp only
      have h1 : ⌊propShare counts.sum c nDraws⌋₊ ≤ ⌊(c : Rat)⌋₊ := Nat.floor_le_floor hshare
      rwa [Nat.floor_natCast] at h1
    · intro hpos
      simp only at hpos ⊢
      have h1 : (⌊propShare counts.sum c nDraws⌋₊ : Rat) < propShare counts.sum c nDraws := by
        linarith
      have h2 : (⌊propShare counts.sum c nDraws⌋₊ : Rat) < (c : Rat) := lt_of_lt_of_le h1 hshare
      have h3 : ⌊propShare counts.sum c nDraws⌋₊ < c := by exact_mod_cast h2
      omega
  have := addExtras_bound info (nDraws - (info.map (fun p => p.1)).sum) hcond
  rw [hmap] at this
  unfold approximateMode
  rw [← hinfo]
  exact this

theorem subCounts_sum {cs ks : List Nat} (h : List.Forall₂ (fun a b => a ≤ b) ks cs) :
    (subCounts cs ks).sum = cs.sum - ks.sum := by
  induction h with
  | nil => simp [subCounts]
  | cons hab htail ih =>
    rename_i k c ks cs
    have hsums : ks.sum ≤ cs.sum := by
      clear ih hab
      induction htail with
      | nil => simp
      | cons h _ ih => simpa using Nat.add_le_add h ih
    simp only [subCounts, List.sum_cons, ih]
    omega

theorem forall₂_sum_le {ks cs : List Nat} (h : List.Forall₂ (fun a b => a ≤ b) ks cs) :
    ks.sum ≤ cs.sum := by
  induction h with
  | nil => simp
  | cons hab _ ih => simpa using Nat.add_le_add hab ih

theorem splitByClass_lengths (seed : Nat) (ls : List (List Nat)) (ks ts : List Nat)
    (h1 : List.Forall₂ (fun k (l : List Nat) => k ≤ l.length) ks ls)
    (h2 : List.Forall₂ (fun a b => a ≤ b) ts (subCounts (ls.map List.length) ks)) :
    (splitByClass seed ls ks ts).1.length = ks.sum ∧
    (splitByClass seed ls ks ts).2.length = ts.sum := by
  induction ls generalizing ks ts with
  | nil =>
    cases h1
    cases h2
    simp [splitByClass]
  | cons l rest ih =>
    cases h1 with
    | cons hk h1rest =>
      rename_i k ks'
      simp only [List.map_cons, subCounts] at h2
      cases h2 with
      | cons ht h2rest =>
        rename_i t ts'
        have ihrec := ih ks' ts' h1rest h2rest
        constructor
        · simp only [splitByClass, List.length_append, List.sum_cons, ihrec.1]
          rw [List.length_take, pseudoShuffle_length]
          omega
        · simp only [splitByClass, List.length_append, List.sum_cons, ihrec.2]
          rw [List.length_take, List.length_drop, pseudoShuffle_length]
          omega

theorem splitByClass_train_mem (seed : Nat) (ls : List (List Nat)) (ks ts : List Nat) :
    ∀ x ∈ (splitByClass seed ls ks ts).1, ∃ l ∈ ls, x ∈ l := by
  induction ls generalizing ks ts with
  | nil => intro x hx; simp [splitByClass] at hx
  | cons l rest ih =>
    intro x hx
    match ks, ts with
    | [], _ => simp [splitByClass] at hx
    | _ :: _, [] => simp [splitByClass] at hx
    | k :: ks', t :: ts' =>
      simp only [splitByClass, List.mem_append] at hx
      rcases hx with hx | hx
      · exact ⟨l, List.mem_cons_self l rest,
          pseudoShuffle_mem.1 (List.take_subset _ _ hx)⟩
      · rcases ih ks' ts' x hx with ⟨l', hl', hxl'⟩
        exact ⟨l', List.mem_cons_of_mem l hl', hxl'⟩

theorem splitByClass_test_mem (seed : Nat) (ls : List (List Nat)) (ks ts : List Nat) :
    ∀ x ∈ (splitByClass seed ls ks ts).2, ∃ l ∈ ls, x ∈ l := by
  induction ls generalizing ks ts with
  | nil => intro x hx; simp [splitByClass] at hx
  | cons l rest ih =>
    intro x hx
    match ks, ts with
    | [], _ => simp [splitByClass] at hx
    | _ :: _, [] => simp [splitByClass] at hx
    | k :: ks', t :: ts' =>
      simp only [splitByClass, List.mem_append] at hx
      rcases hx with hx | hx
      · refine ⟨l, List.mem_cons_self l rest, ?_⟩
        exact pseudoShuffle_mem.1 (List.drop_subset _ _ (List.take_subset _ _ hx))
      · rcases ih ks' ts' x hx with ⟨l', hl', hxl'⟩
        exact ⟨l', List.mem_cons_of_mem l hl', hxl'⟩

theorem splitByClass_disjoint (seed : Nat) (ls : List (List Nat)) (ks ts : List Nat)
    (hnd : ∀ l ∈ ls, l.Nodup) (hpw : List.Pairwise List.Disjoint ls) :
    List.Disjoint (splitByClass seed ls ks ts).1 (splitByClass seed ls ks ts).2 := by
  induction ls generalizing ks ts with
  | nil => intro x hx; simp [splitByClass] at hx
  | cons l rest ih =>
    intro x hx1 hx2
    match ks, ts with
    | [], _ => simp [splitByClass] at hx1
    | _ :: _, [] => simp [splitByClass] at hx1
    | k :: ks', t :: ts' =>
      have hshnd : (pseudoShuffle seed l).Nodup :=
        pseudoShuffle_nodup (hnd l (List.mem_cons_self l rest))
      have hpwhead : ∀ l' ∈ rest, List.Disjoint l l' := fun l' hl' =>
        (List.pairwise_cons.1 hpw).1 l' hl'
      simp only [splitByClass, List.mem_append] at hx1 hx2
      rcases hx1 with hx1 | hx1 <;> rcases hx2 with hx2 | hx2
      · exact List.disjoint_take_drop hshnd (Nat.le_refl k) hx1
          (List.take_subset _ _ hx2)
      · rcases splitByClass_test_mem seed rest ks' ts' x hx2 with ⟨l', hl', hxl'⟩
        exact hpwhead l' hl' (pseudoShuffle_mem.1 (List.take_subset _ _ hx1)) hxl'
      · rcases splitByClass_train_mem seed rest ks' ts' x hx1 with ⟨l', hl', hxl'⟩
        exact hpwhead l' hl'
          (pseudoShuffle_mem.1 (List.drop_subset _ _ (List.take_subset _ _ hx2))) hxl'
      · exact ih ks' ts'
          (fun l' hl' => hnd l' (List.mem_cons_of_mem l hl'))
          (List.pairwise_cons.1 hpw).2 hx1 hx2

theorem stratifiedShuffleSplit_spec (bins : List Nat) (nTrain nTest seed : Nat)
    (hTest : 0 < nTest) (hsum : nTrain + nTest ≤ bins.length) (hn : 0 < bins.length) :
    (stratifiedShuffleSplit bins nTrain nTest seed).1.length = nTrain ∧
    (stratifiedShuffleSplit bins nTrain nTest seed).2.length = nTest ∧
    List.Disjoint (stratifiedShuffleSplit bins nTrain nTest seed).1
      (stratifiedShuffleSplit bins nTrain nTest seed).2 ∧
    (∀ i ∈ (stratifiedShuffleSplit bins nTrain nTest seed).1, i < bins.length) ∧
    (∀ i ∈ (stratifiedShuffleSplit bins nTrain nTest seed).2, i < bins.length) := by
  have hcountsum : ((classLists bins).map List.length).sum = bins.length :=
    classLists_length_sum bins
  have hT1 : 0 < ((classLists bins).map List.length).sum := by omega
  have hD1 : nTrain ≤ ((classLists bins).map List.length).sum := by omega
  set counts := (classLists bins).map List.length with hcounts
  set nIs := approximateMode counts nTrain with hnIs
  have hnIs_le : List.Forall₂ (fun a b => a ≤ b) nIs counts :=
    approximateMode_le counts nTrain hT1 hD1
  have hnIs_sum : nIs.sum = nTrain := approximateMode_sum counts nTrain hT1 hD1
  have hrem_sum : (subCounts counts nIs).sum = bins.length - nTrain := by
    rw [subCounts_sum hnIs_le, hnIs_sum, hcountsum]
  have hT2 : 0 < (subCounts counts nIs).sum := by omega
  have hD2 : nTest ≤ (subCounts counts nIs).sum := by omega
  set tIs := approximateMode (subCounts counts nIs) nTest with htIs
  have htIs_le : List.Forall₂ (fun a b => a ≤ b) tIs (subCounts counts nIs) :=
    approximateMode_le _ nTest hT2 hD2
  have htIs_sum : tIs.sum = nTest := approximateMode_sum _ nTest hT2 hD2
  have h1 : List.Forall₂ (fun k (l : List Nat) => k ≤ l.length) nIs (classLists bins) := by
    have := hnIs_le
    rw [hcounts] at this
    exact List.forall₂_map_right_iff.1 this
  have hlen := splitByClass_lengths seed (classLists bins) nIs tIs h1 htIs_le
  have hdisj := splitByClass_disjoint seed (classLists bins) nIs tIs
    (classLists_forall_nodup bins) (classLists_pairwise_disjoint bins)
  refine ⟨?_, ?_, ?_, ?_, ?_⟩
  · unfold stratifiedShuffleSplit
    rw [pseudoShuffle_length, ← hcounts, ← hnIs, ← htIs, hlen.1, hnIs_sum]
  · unfold stratifiedShuffleSplit
    rw [pseudoShuffle_length, ← hcounts, ← hnIs, ← htIs, hlen.2, htIs_sum]
  · intro x hx1 hx2
    unfold stratifiedShuffleSplit at hx1 hx2
    rw [← hcounts, ← hnIs, ← htIs] at hx1 hx2
    exact hdisj (pseudoShuffle_mem.1 hx1) (pseudoShuffle_mem.1 hx2)
  · intro i hi
    unfold stratifiedShuffleSplit at hi
    rw [← hcounts, ← hnIs, ← htIs] at hi
    rcases splitByClass_train_mem seed (classLists bins) nIs tIs i
      (pseudoShuffle_mem.1 hi) with ⟨l, hl, hil⟩
    exact classLists_mem_lt bins l hl i hil
  · intro i hi
    unfold stratifiedShuffleSplit at hi
    rw [← hcounts, ← hnIs, ← htIs] at hi
    rcases splitByClass_test_mem seed (classLists bins) nIs tIs i
      (pseudoShuffle_mem.1 hi) with ⟨l, hl, hil⟩
    exact classLists_mem_lt bins l hl i hil

theorem make_stratify_bins_length (y : List Rat) (n_bins : Nat) :
    (make_stratify_bins y n_bins).length = y.length := List.length_map y _

theorem sorted_le_getLast {l : List Rat} (hs : List.Sorted (fun a b => a ≤ b) l)
    {v : Rat} (hv : v ∈ l) : v ≤ l.getD (l.length - 1) 0 := by
  induction l with
  | nil => cases hv
  | cons x t ih =>
    match t with
    | [] =>
      rcases List.mem_singleton.1 hv with rfl
      simp
    | y :: s =>
      have hlen : (x :: y :: s).length - 1 = ((y :: s).length - 1) + 1 := by
        simp
      have hstep : (x :: y :: s).getD ((x :: y :: s).length - 1) 0
          = (y :: s).getD ((y :: s).length - 1) 0 := by
        rw [hlen]
        rfl
      rw [hstep]
      have hs' : List.Sorted (fun a b => a ≤ b) (y :: s) := (List.sorted_cons.1 hs).2
      rcases List.mem_cons.1 hv with rfl | hv'
      · have hlast_mem : (y :: s).getD ((y :: s).length - 1) 0 ∈ (y :: s) := by
          have hlt : (y :: s).length - 1 < (y :: s).length := by simp
          rw [List.getD_eq_getElem _ _ hlt]
          exact List.getElem_mem hlt
        exact (List.sorted_cons.1 hs).1 _ hlast_mem
      · exact ih hs' hv'

theorem sortedVals_sorted (y : List Rat) :
    List.Sorted (fun a b => a ≤ b) (sortedVals y) := List.sorted_insertionSort _ y

theorem sortedVals_length (y : List Rat) : (sortedVals y).length = y.length :=
  (List.perm_insertionSort _ y).length_eq

theorem sortedVals_mem {y : List Rat} {v : Rat} : v ∈ sortedVals y ↔ v ∈ y :=
  (List.perm_insertionSort _ y).mem_iff

theorem quantileAt_last (s : List Rat) (den : Nat) (hden : 0 < den) :
    quantileAt s den den = s.getD (s.length - 1) 0 := by
  unfold quantileAt
  have hpos : (den : Rat) * ((s.length - 1 : Nat) : Rat) / (den : Rat)
      = ((s.length - 1 : Nat) : Rat) := by
    rw [mul_comm, mul_div_assoc, div_self (by exact_mod_cast hden.ne'), mul_one]
  rw [hpos, Nat.floor_natCast]
  ring

theorem quantileAt_zero (s : List Rat) (den : Nat) :
    quantileAt s 0 den = s.getD 0 0 := by
  unfold quantileAt
  simp

theorem uniqueEdges_sorted (y : List Rat) (n_bins : Nat) :
    List.Sorted (fun a b => a ≤ b) (uniqueEdges y n_bins) :=
  (List.sorted_insertionSort _ _).sublist (List.dedup_sublist _)

theorem uniqueEdges_nodup (y : List Rat) (n_bins : Nat) :
    (uniqueEdges y n_bins).Nodup := List.nodup_dedup _

theorem mem_uniqueEdges {y : List Rat} {n_bins : Nat} {e : Rat} :
    e ∈ uniqueEdges y n_bins ↔ e ∈ quantEdges y n_bins := by
  unfold uniqueEdges
  rw [List.mem_dedup]
  exact (List.perm_insertionSort _ _).mem_iff

theorem uniqueEdges_length_le (y : List Rat) (n_bins : Nat) :
    (uniqueEdges y n_bins).length ≤ n_bins + 1 := by
  unfold uniqueEdges
  calc ((quantEdges y n_bins).insertionSort (fun a b => a ≤ b)).dedup.length
      ≤ ((quantEdges y n_bins).insertionSort (fun a b => a ≤ b)).length :=
        (List.dedup_sublist _).length_le
    _ = (quantEdges y n_bins).length := (List.perm_insertionSort _ _).length_eq
    _ = n_bins + 1 := by unfold quantEdges; simp

theorem effectiveBinCount_le (y : List Rat) (n_bins : Nat) :
    effectiveBinCount y n_bins ≤ n_bins := by
  unfold effectiveBinCount
  have := uniqueEdges_length_le y n_bins
  omega

theorem sorted_getD_zero_le {l : List Rat} (hs : List.Sorted (fun a b => a ≤ b) l)
    {v : Rat} (hv : v ∈ l) : l.getD 0 0 ≤ v := by
  match l with
  | [] => cases hv
  | x :: t =>
    rcases List.mem_cons.1 hv with rfl | hv'
    · simp
    · simpa using (List.sorted_cons.1 hs).1 v hv'

theorem two_mem_length_le {l : List Rat} {a b : Rat} (ha : a ∈ l) (hb : b ∈ l)
    (hab : a ≠ b) : 2 ≤ l.length := by
  match l with
  | [] => cases ha
  | [x] =>
    rcases List.mem_singleton.1 ha with rfl
    rcases List.mem_singleton.1 hb with rfl
    exact absurd rfl hab
  | x :: y :: t => simp

theorem mx_mem_quantEdges (y : List Rat) (n_bins : Nat) (hb : 0 < n_bins) :
    (sortedVals y).getD ((sortedVals y).length - 1) 0 ∈ quantEdges y n_bins := by
  unfold quantEdges
  refine List.mem_map.2 ⟨n_bins, List.mem_range.2 (Nat.lt_succ_self _), ?_⟩
  exact quantileAt_last (sortedVals y) n_bins hb

theorem mn_mem_quantEdges (y : List Rat) (n_bins : Nat) :
    (sortedVals y).getD 0 0 ∈ quantEdges y n_bins := by
  unfold quantEdges
  refine List.mem_map.2 ⟨0, List.mem_range.2 (Nat.succ_pos _), ?_⟩
  exact quantileAt_zero (sortedVals y) n_bins

theorem binCodeOf_lt (y : List Rat) (n_bins : Nat) (hb : 0 < n_bins)
    (hne : ∃ a ∈ y, ∃ b ∈ y, a ≠ b) :
    ∀ v ∈ y, binCodeOf (uniqueEdges y n_bins) v < effectiveBinCount y n_bins := by
  intro v hv
  set s := sortedVals y with hsv
  set mn := s.getD 0 0 with hmn
  set mx := s.getD (s.length - 1) 0 with hmx
  rcases hne with ⟨a, ha, b, hb', hab⟩
  have hasv : a ∈ s := sortedVals_mem.2 ha
  have hbsv : b ∈ s := sortedVals_mem.2 hb'
  have hssorted := sortedVals_sorted y
  have hvs : v ∈ s := sortedVals_mem.2 hv
  have hvmx : v ≤ mx := sorted_le_getLast hssorted hvs
  have hmnmx : mn ≠ mx := by
    intro hcontra
    have h1 : mn ≤ a := sorted_getD_zero_le hssorted hasv
    have h2 : a ≤ mx := sorted_le_getLast hssorted hasv
    have h3 : mn ≤ b := sorted_getD_zero_le hssorted hbsv
    have h4 : b ≤ mx := sorted_le_getLast hssorted hbsv
    apply hab
    have hha : a = mx := le_antisymm h2 (hcontra ▸ h1)
    have hhb : b = mx := le_antisymm h4 (hcontra ▸ h3)
    rw [hha, hhb]
  have hmx_mem : mx ∈ uniqueEdges y n_bins :=
    mem_uniqueEdges.2 (mx_mem_quantEdges y n_bins hb)
  have hmn_mem : mn ∈ uniqueEdges y n_bins :=
    mem_uniqueEdges.2 (mn_mem_quantEdges y n_bins)
  have hlen2 : 2 ≤ (uniqueEdges y n_bins).length :=
    two_mem_length_le hmn_mem hmx_mem hmnmx
  set uniq := uniqueEdges y n_bins with huniq
  set estar := uniq.getD (uniq.length - 1) 0 with hestar
  have hmxe : mx ≤ estar := sorted_le_getLast (uniqueEdges_sorted y n_bins) hmx_mem
  have hestar_drop : estar ∈ uniq.drop 1 := by
    match hu : uniq with
    | [] => simp at hlen2
    | [u] => simp at hlen2
    | u0 :: u1 :: rest =>
      have hgd : (u0 :: u1 :: rest).getD ((u0 :: u1 :: rest).length - 1) 0
          = (u1 :: rest).getD ((u1 :: rest).length - 1) 0 := by
        have : (u0 :: u1 :: rest).length - 1 = ((u1 :: rest).length - 1) + 1 := by simp
        rw [this]
        rfl
      rw [hestar, hgd]
      have hlt : (u1 :: rest).length - 1 < (u1 :: rest).length := by simp
      rw [List.getD_eq_getElem _ _ hlt]
      simpa using List.getElem_mem hlt
  unfold binCodeOf effectiveBinCount
  rw [← huniq]
  have hdroplen : (uniq.drop 1).length = uniq.length - 1 := List.length_drop 1 uniq
  rw [← hdroplen]
  have hle := List.countP_le_length (l := uniq.drop 1) (fun e => decide (e < v))
  rcases Nat.lt_or_ge ((uniq.drop 1).countP (fun e => decide (e < v)))
    ((uniq.drop 1).length) with hlt | hge
  · exact hlt
  · exfalso
    have heq : (uniq.drop 1).countP (fun e => decide (e < v)) = (uniq.drop 1).length := by
      omega
    have hall := List.countP_eq_length.1 heq
    have := hall estar hestar_drop
    have hlt2 : estar < v := of_decide_eq_true this
    linarith

theorem floor_prop_roundtrip (ts n : Nat) (hn : 0 < n) :
    ⌊(ts : Rat) / (n : Rat) * (n : Rat)⌋₊ = ts := by
  rw [div_mul_cancel₀]
  · exact Nat.floor_natCast ts
  · exact_mod_cast hn.ne'

theorem ceil_prop_roundtrip (ts n : Nat) (hn : 0 < n) :
    ⌈(ts : Rat) / (n : Rat) * (n : Rat)⌉₊ = ts := by
  rw [div_mul_cancel₀]
  · exact Nat.ceil_natCast ts
  · exact_mod_cast hn.ne'

theorem filterMap_getElem_length (rows : List α) (l : List Nat)
    (h : ∀ i ∈ l, i < rows.length) :
    (l.filterMap (fun i => rows[i]?)).length = l.length := by
  induction l with
  | nil => rfl
  | cons a t ih =>
    rw [List.filterMap_cons, List.getElem?_eq_getElem (h a (List.mem_cons_self a t))]
    simp only [List.length_cons]
    rw [ih (fun i hi => h i (List.mem_cons_of_mem a hi))]

theorem filterMap_range_getElem (n : Nat) (l : List Nat) (h : ∀ i ∈ l, i < n) :
    l.filterMap (fun i => (List.range n)[i]?) = l := by
  induction l with
  | nil => rfl
  | cons a t ih =>
    rw [List.filterMap_cons, List.getElem?_range (h a (List.mem_cons_self a t))]
    rw [ih (fun i hi => h i (List.mem_cons_of_mem a hi))]

theorem stratified_eval (rows : List α) (y : List Rat) (ts tes seed n_bins : Nat)
    (h1 : 0 < ts) (h2 : 0 < tes) (h3 : ts + tes ≤ rows.length) :
    stratified_fixed_sizes rows y ts tes seed n_bins
      = some
        (trimTo ((stratifiedShuffleSplit (make_stratify_bins y n_bins) ts tes seed).1.filterMap
            (fun i => rows[i]?)) ts seed,
         trimTo ((stratifiedShuffleSplit (make_stratify_bins y n_bins) ts tes seed).2.filterMap
            (fun i => rows[i]?)) tes (seed + 1)) := by
  have hn : 0 < rows.length := by omega
  unfold stratified_fixed_sizes
  rw [if_pos ⟨h1, h2⟩, if_pos h3, floor_prop_roundtrip ts rows.length hn,
    ceil_prop_roundtrip tes rows.length hn]

theorem stratified_split_facts (rows : List α) (y : List Rat) (ts tes seed n_bins : Nat)
    (h1 : 0 < ts) (h2 : 0 < tes) (h3 : ts + tes ≤ rows.length) (hy : y.length = rows.length) :
    ((stratifiedShuffleSplit (make_stratify_bins y n_bins) ts tes seed).1.length = ts
    ∧ (stratifiedShuffleSplit (make_stratify_bins y n_bins) ts tes seed).2.length = tes)
    ∧ List.Disjoint (stratifiedShuffleSplit (make_stratify_bins y n_bins) ts tes seed).1
        (stratifiedShuffleSplit (make_stratify_bins y n_bins) ts tes seed).2
    ∧ ((∀ i ∈ (stratifiedShuffleSplit (make_stratify_bins y n_bins) ts tes seed).1,
          i < rows.length)
    ∧ (∀ i ∈ (stratifiedShuffleSplit (make_stratify_bins y n_bins) ts tes seed).2,
          i < rows.length)) := by
  have hbl : (make_stratify_bins y n_bins).length = rows.length := by
    rw [make_stratify_bins_length, hy]
  have hsp := stratifiedShuffleSplit_spec (make_stratify_bins y n_bins) ts tes seed h2
    (by omega) (by omega)
  exact ⟨⟨hsp.1, hsp.2.1⟩, hsp.2.2.1,
    fun i hi => hbl ▸ hsp.2.2.2.1 i hi, fun i hi => hbl ▸ hsp.2.2.2.2 i hi⟩

/-- C1: for valid inputs (positive sizes whose sum fits in the data set, with
the target column parallel to the rows), `stratified_fixed_sizes` succeeds and
returns a train subset of exactly `train_size` rows and a test subset of
exactly `test_size` rows. -/
theorem stratified_fixed_sizes_exact (rows : List α) (y : List Rat)
    (train_size test_size seed n_bins : Nat)
    (h1 : 0 < train_size) (h2 : 0 < test_size)
    (h3 : train_size + test_size ≤ rows.length) (hy : y.length = rows.length) :
    ∃ tr te, stratified_fixed_sizes rows y train_size test_size seed n_bins = some (tr, te)
      ∧ tr.length = train_size ∧ te.length = test_size := by
  obtain ⟨⟨hl1, hl2⟩, _, hm1, hm2⟩ :=
    stratified_split_facts rows y train_size test_size seed n_bins h1 h2 h3 hy
  refine ⟨_, _, stratified_eval rows y train_size test_size seed n_bins h1 h2 h3, ?_, ?_⟩
  · rw [trimTo_eq_of_le _ _ _ (le_of_eq (by rw [filterMap_getElem_length rows _ hm1, hl1]))]
    rw [filterMap_getElem_length rows _ hm1, hl1]
  · rw [trimTo_eq_of_le _ _ _ (le_of_eq (by rw [filterMap_getElem_length rows _ hm2, hl2]))]
    rw [filterMap_getElem_length rows _ hm2, hl2]

/-- Witness for C1 at a concrete input: 4 records, two of each requested
size 1, seed 0, 2 bins. -/
theorem stratified_fixed_sizes_exact_witness :
    ∃ tr te,
      stratified_fixed_sizes [10, 20, 30, 40] [0, 1, 2, 3] 2 1 0 2 = some (tr, te)
        ∧ tr.length = 2 ∧ te.length = 1 :=
  stratified_fixed_sizes_exact [10, 20, 30, 40] [(0 : Rat), 1, 2, 3] 2 1 0 2
    (by decide) (by decide) (by decide) (by decide)

/-- C2: `stratified_fixed_sizes` reports a constraint violation exactly when a
requested size is non-positive or the sizes sum to more than the available
records; the guard is evaluated before the binning and sampling work (both
happen under the `some` branch only), so in particular
`train_size + test_size = rows.length` succeeds and one more record fails. -/
theorem stratified_fixed_sizes_guard (rows : List α) (y : List Rat)
    (train_size test_size seed n_bins : Nat) :
    (stratified_fixed_sizes rows y train_size test_size seed n_bins).isSome
      ↔ (0 < train_size ∧ 0 < test_size ∧ train_size + test_size ≤ rows.length) := by
  unfold stratified_fixed_sizes
  by_cases hA : 0 < train_size ∧ 0 < test_size
  · rw [if_pos hA]
    by_cases hB : train_size + test_size ≤ rows.length
    · rw [if_pos hB]
      simp [hA.1, hA.2, hB]
    · rw [if_neg hB]
      simp [hB]
  · rw [if_neg hA]
    simp only [Option.isSome_none, Bool.false_eq_true, false_iff]
    intro hcontra
    exact hA ⟨hcontra.1, hcontra.2.1⟩

/-- C4: on any data set (records identified by their original row position),
no position selected into the train subset also appears in the test subset. -/
theorem stratified_fixed_sizes_disjoint (n : Nat) (y : List Rat)
    (train_size test_size seed n_bins : Nat)
    (h1 : 0 < train_size) (h2 : 0 < test_size)
    (h3 : train_size + test_size ≤ n) (hy : y.length = n) :
    ∃ tr te,
      stratified_fixed_sizes (List.range n) y train_size test_size seed n_bins = some (tr, te)
        ∧ ∀ i ∈ tr, i ∉ te := by
  have hlen : (List.range n).length = n := List.length_range n
  obtain ⟨_, hdisj, hm1, hm2⟩ :=
    stratified_split_facts (List.range n) y train_size test_size seed n_bins h1 h2
      (by omega) (by omega)
  refine ⟨_, _, stratified_eval (List.range n) y train_size test_size seed n_bins h1 h2
    (by omega), ?_⟩
  intro i hitr hite
  rw [filterMap_range_getElem n _ (fun j hj => hlen ▸ hm1 j hj)] at hitr
  rw [filterMap_range_getElem n _ (fun j hj => hlen ▸ hm2 j hj)] at hite
  exact hdisj (trimTo_subset hitr) (trimTo_subset hite)

/-- Witness for C4 at a concrete input: 4 records, sizes 2 and 2. -/
theorem stratified_fixed_sizes_disjoint_witness :
    ∃ tr te,
      stratified_fixed_sizes (List.range 4) [0, 1, 2, 3] 2 2 7 3 = some (tr, te)
        ∧ ∀ i ∈ tr, i ∉ te :=
  stratified_fixed_sizes_disjoint 4 [(0 : Rat), 1, 2, 3] 2 2 7 3
    (by decide) (by decide) (by decide) (by decide)

/-- C5: the split is a pure function of the data, the sizes, the seed and the
bin count — runs on equal inputs produce equal subsets (all randomness in the
embedding is derived from `random_state`, mirroring the seeded library
generators used by the script). -/
theorem stratified_fixed_sizes_deterministic (rows rows₂ : List α) (y y₂ : List Rat)
    (ts ts₂ tes tes₂ seed seed₂ n_bins n_bins₂ : Nat)
    (hrows : rows = rows₂) (hy : y = y₂) (hts : ts = ts₂) (htes : tes = tes₂)
    (hseed : seed = seed₂) (hbins : n_bins = n_bins₂) :
    stratified_fixed_sizes rows y ts tes seed n_bins
      = stratified_fixed_sizes rows₂ y₂ ts₂ tes₂ seed₂ n_bins₂ := by
  subst hrows hy hts htes hseed hbins
  rfl

/-- Witness for C5 at a concrete input. -/
theorem stratified_fixed_sizes_deterministic_witness :
    stratified_fixed_sizes [5, 6, 7] [1, 2, 3] 1 1 42 10
      = stratified_fixed_sizes [5, 6, 7] [(1 : Rat), 2, 3] 1 1 42 10 :=
  stratified_fixed_sizes_deterministic [5, 6, 7] [5, 6, 7] [(1 : Rat), 2, 3]
    [(1 : Rat), 2, 3] 1 1 1 1 42 42 10 10 rfl rfl rfl rfl rfl rfl

/-- C9: the returned subsets never exceed the requested sizes, and the
adjustment step is one-sided: `trimTo` downsamples an oversized list to
exactly the requested size but returns an undersized list unchanged (no
padding). -/
theorem stratified_fixed_sizes_bounded (rows : List α) (y : List Rat)
    (train_size test_size seed n_bins : Nat)
    (h1 : 0 < train_size) (h2 : 0 < test_size)
    (h3 : train_size + test_size ≤ rows.length) (hy : y.length = rows.length) :
    (∃ tr te,
      stratified_fixed_sizes rows y train_size test_size seed n_bins = some (tr, te)
        ∧ tr.length ≤ train_size ∧ te.length ≤ test_size)
    ∧ (∀ (l : List α) (s sd : Nat), (trimTo l s sd).length = min l.length s)
    ∧ (∀ (l : List α) (s sd : Nat), l.length ≤ s → trimTo l s sd = l) := by
  refine ⟨?_, trimTo_length, trimTo_eq_of_le⟩
  refine ⟨_, _, stratified_eval rows y train_size test_size seed n_bins h1 h2 h3, ?_, ?_⟩
  · rw [trimTo_length]
    omega
  · rw [trimTo_length]
    omega

/-- Witness for C9 at a concrete input. -/
theorem stratified_fixed_sizes_bounded_witness :
    (∃ tr te,
      stratified_fixed_sizes [10, 20, 30] [3, 1, 2] 1 1 9 4 = some (tr, te)
        ∧ tr.length ≤ 1 ∧ te.length ≤ 1)
    ∧ (∀ (l : List Nat) (s sd : Nat), (trimTo l s sd).length = min l.length s)
    ∧ (∀ (l : List Nat) (s sd : Nat), l.length ≤ s → trimTo l s sd = l) :=
  stratified_fixed_sizes_bounded [10, 20, 30] [(3 : Rat), 1, 2] 1 1 9 4
    (by decide) (by decide) (by decide) (by decide)

/-- C6: `make_stratify_bins` totally assigns one integer code to every record;
every code is in `[0, B)` for the effective bin count `B`, and `B` is at most
the requested bin count — duplicate quantile edges only shrink `B` silently
(hypotheses: at least one bin is requested and the target is not constant,
the regime in which the quantile edges are well defined). -/
theorem make_stratify_bins_spec (y : List Rat) (n_bins : Nat) (hb : 0 < n_bins)
    (hne : ∃ a ∈ y, ∃ b ∈ y, a ≠ b) :
    (make_stratify_bins y n_bins).length = y.length
    ∧ effectiveBinCount y n_bins ≤ n_bins
    ∧ ∀ c ∈ make_stratify_bins y n_bins, c < effectiveBinCount y n_bins := by
  refine ⟨make_stratify_bins_length y n_bins, effectiveBinCount_le y n_bins, ?_⟩
  intro c hc
  unfold make_stratify_bins at hc
  rcases List.mem_map.1 hc with ⟨v, hv, rfl⟩
  exact binCodeOf_lt y n_bins hb hne v hv

/-- Witness for C6 at a concrete input: 5 values with a duplicate, 3 bins. -/
theorem make_stratify_bins_spec_witness :
    (make_stratify_bins [1, 1, 2, 3, 4] 3).length = 5
    ∧ effectiveBinCount [1, 1, 2, 3, 4] 3 ≤ 3
    ∧ ∀ c ∈ make_stratify_bins [1, 1, 2, 3, 4] 3, c < effectiveBinCount [1, 1, 2, 3, 4] 3 := by
  have h := make_stratify_bins_spec [(1 : Rat), 1, 2, 3, 4] 3 (by decide)
    ⟨1, by decide, 2, by decide, by decide⟩
  exact ⟨by rw [h.1]; rfl, h.2.1, h.2.2⟩

theorem node_dict_id (sk : SkTree) (feature_names : List ν) (i : Nat) :
    (node_dict sk feature_names i).id = i := by
  unfold node_dict
  split <;> rfl

theorem mem_export_nodes {sk : SkTree} {feature_names : List ν} {d : NodeDict ν}
    (hd : d ∈ (export_tree_json sk feature_names).nodes) :
    ∃ i, i < sk.node_count ∧ d = node_dict sk feature_names i := by
  unfold export_tree_json at hd
  rcases List.mem_map.1 hd with ⟨i, hi, rfl⟩
  exact ⟨i, List.mem_range.1 hi, rfl⟩

/-- C3: in the exported node list, `isLeaf` holds exactly when the source
arrays record equal left and right child ids; leaf records carry none of
`feature`, `featureIndex`, `threshold`, `left`, `right`, and split records
carry all five, with `left`/`right` equal to the source child ids (the tree is
assumed well formed, i.e. split feature indices are in range, as sklearn
guarantees for fitted trees). -/
theorem export_tree_json_leaf_iff (sk : SkTree) (feature_names : List ν)
    (hwf : sk.WellFormed feature_names.length) :
    ∀ d ∈ (export_tree_json sk feature_names).nodes,
      (d.isLeaf = true ↔ sk.children_left d.id = sk.children_right d.id)
      ∧ (d.isLeaf = true →
          d.feature = none ∧ d.featureIndex = none ∧ d.threshold = none
          ∧ d.left = none ∧ d.right = none)
      ∧ (d.isLeaf = false →
          d.feature.isSome = true ∧ d.featureIndex = some (sk.feature d.id)
          ∧ d.threshold = some (sk.threshold d.id)
          ∧ d.left = some (sk.children_left d.id)
          ∧ d.right = some (sk.children_right d.id)) := by
  intro d hd
  rcases mem_export_nodes hd with ⟨i, hi, rfl⟩
  rw [node_dict_id]
  unfold node_dict
  by_cases hleaf : sk.children_left i = sk.children_right i
  · rw [if_pos hleaf]
    refine ⟨by simp [hleaf], fun _ => ⟨rfl, rfl, rfl, rfl, rfl⟩, fun hfalse => ?_⟩
    simp at hfalse
  · rw [if_neg hleaf]
    refine ⟨by simp [hleaf], fun htrue => ?_, fun _ => ?_⟩
    · simp at htrue
    · refine ⟨?_, rfl, rfl, rfl, rfl⟩
      simp only
      rw [List.getElem?_eq_getElem (hwf i hi hleaf)]
      rfl

theorem skTreeEx_wf : skTreeEx.WellFormed 2 := by
  intro i hi hne
  show skTreeEx.feature i < 2
  simp [skTreeEx]

/-- Witness for C3: the split node of the concrete 3-node tree with two
feature names. -/
theorem export_tree_json_leaf_iff_witness :
    ((node_dict skTreeEx [0, 1] 0).isLeaf = true
        ↔ skTreeEx.children_left (node_dict skTreeEx [0, 1] 0).id
          = skTreeEx.children_right (node_dict skTreeEx [0, 1] 0).id)
    ∧ ((node_dict skTreeEx [0, 1] 0).isLeaf = true →
        (node_dict skTreeEx [0, 1] 0).feature = none
        ∧ (node_dict skTreeEx [0, 1] 0).featureIndex = none
        ∧ (node_dict skTreeEx [0, 1] 0).threshold = none
        ∧ (node_dict skTreeEx [0, 1] 0).left = none
        ∧ (node_dict skTreeEx [0, 1] 0).right = none)
    ∧ ((node_dict skTreeEx [0, 1] 0).isLeaf = false →
        (node_dict skTreeEx [0, 1] 0).feature.isSome = true
        ∧ (node_dict skTreeEx [0, 1] 0).featureIndex
            = some (skTreeEx.feature (node_dict skTreeEx [0, 1] 0).id)
        ∧ (node_dict skTreeEx [0, 1] 0).threshold
            = some (skTreeEx.threshold (node_dict skTreeEx [0, 1] 0).id)
        ∧ (node_dict skTreeEx [0, 1] 0).left
            = some (skTreeEx.children_left (node_dict skTreeEx [0, 1] 0).id)
        ∧ (node_dict skTreeEx [0, 1] 0).right
            = some (skTreeEx.children_right (node_dict skTreeEx [0, 1] 0).id)) :=
  export_tree_json_leaf_iff skTreeEx [0, 1] skTreeEx_wf
    (node_dict skTreeEx [0, 1] 0)
    (List.mem_map.2 ⟨0, List.mem_range.2 (by decide), rfl⟩)

/-- C7: the exported dictionary has root id 0 and exactly `node_count` node
entries whose ids are `0, 1, ..., node_count - 1` in order. -/
theorem export_tree_json_ids (sk : SkTree) (feature_names : List ν) :
    (export_tree_json sk feature_names).root = 0
    ∧ (export_tree_json sk feature_names).nodes.length = sk.node_count
    ∧ (export_tree_json sk feature_names).nodes.map NodeDict.id
        = List.range sk.node_count := by
  refine ⟨rfl, ?_, ?_⟩
  · unfold export_tree_json
    simp
  · unfold export_tree_json
    simp only [List.map_map]
    calc List.map (NodeDict.id ∘ node_dict sk feature_names) (List.range sk.node_count)
        = List.map (fun i => i) (List.range sk.node_count) :=
          List.map_congr_left (fun i _ => node_dict_id sk feature_names i)
      _ = List.range sk.node_count := List.map_id _

theorem foldl_min_le_acc (t : List Rat) (acc : Rat) : t.foldl min acc ≤ acc := by
  induction t generalizing acc with
  | nil => simp
  | cons c u ih => exact le_trans (ih _) (min_le_left _ _)

theorem foldl_acc_le_max (t : List Rat) (acc : Rat) : acc ≤ t.foldl max acc := by
  induction t generalizing acc with
  | nil => simp
  | cons c u ih => exact le_trans (le_max_left _ _) (ih _)

theorem seriesMin_le_mem {xs : List Rat} {v : Rat} (hv : v ∈ xs) : seriesMin xs ≤ v := by
  match xs with
  | [] => cases hv
  | x :: t =>
    show t.foldl min x ≤ v
    rcases List.mem_cons.1 hv with rfl | hmem
    · exact foldl_min_le_acc t v
    · clear hv
      induction t generalizing x with
      | nil => cases hmem
      | cons b s ih =>
        rcases List.mem_cons.1 hmem with rfl | hmem'
        · exact le_trans (foldl_min_le_acc s (min x v)) (min_le_right x v)
        · exact ih _ hmem'

theorem mem_le_seriesMax {xs : List Rat} {v : Rat} (hv : v ∈ xs) : v ≤ seriesMax xs := by
  match xs with
  | [] => cases hv
  | x :: t =>
    show v ≤ t.foldl max x
    rcases List.mem_cons.1 hv with rfl | hmem
    · exact foldl_acc_le_max t v
    · clear hv
      induction t generalizing x with
      | nil => cases hmem
      | cons b s ih =>
        rcases List.mem_cons.1 hmem with rfl | hmem'
        · exact le_trans (le_max_right x v) (foldl_acc_le_max s (max x v))
        · exact ih _ hmem'

theorem stats_ordered (xs : List Rat) :
    seriesMin xs ≤ seriesMedian xs ∧ seriesMedian xs ≤ seriesMax xs := by
  match hxs : xs with
  | [] =>
    constructor <;> simp [seriesMin, seriesMax, seriesMedian, sortedVals]
  | x :: t =>
    set s := sortedVals (x :: t) with hs
    have hslen : s.length = (x :: t).length := sortedVals_length (x :: t)
    have hpos : 0 < s.length := by rw [hslen]; simp
    have hmem_of_idx : ∀ i, i < s.length → s.getD i 0 ∈ (x :: t) := by
      intro i hi
      rw [List.getD_eq_getElem _ _ hi]
      exact sortedVals_mem.1 (hs ▸ List.getElem_mem hi)
    unfold seriesMedian
    rw [← hs]
    by_cases hodd : s.length % 2 = 1
    · rw [if_pos hodd]
      have hlt : s.length / 2 < s.length := by omega
      have hm := hmem_of_idx _ hlt
      exact ⟨seriesMin_le_mem hm, mem_le_seriesMax hm⟩
    · rw [if_neg hodd]
      have hge2 : 2 ≤ s.length := by omega
      have hlt1 : s.length / 2 - 1 < s.length := by omega
      have hlt2 : s.length / 2 < s.length := by omega
      have hm1 := hmem_of_idx _ hlt1
      have hm2 := hmem_of_idx _ hlt2
      have ha1 := seriesMin_le_mem hm1
      have ha2 := seriesMin_le_mem hm2
      have hb1 := mem_le_seriesMax hm1
      have hb2 := mem_le_seriesMax hm2
      constructor <;> [linarith; linarith]

/-- C8: every `min/median/max` triple written to `meta.json` — one per feature
and one for the target — satisfies `min ≤ median ≤ max`. -/
theorem trainMain_stats_ordered [DecidableEq ν] (df : List (ν × List Rat)) (target : ν)
    (fit : List (ν × List Rat) → List Rat → SkTree) :
    (∀ p ∈ (trainMain df target fit).2.featureStats,
       p.2.min ≤ p.2.median ∧ p.2.median ≤ p.2.max)
    ∧ ((trainMain df target fit).2.targetStats.min
        ≤ (trainMain df target fit).2.targetStats.median
      ∧ (trainMain df target fit).2.targetStats.median
        ≤ (trainMain df target fit).2.targetStats.max) := by
  constructor
  · intro p hp
    unfold trainMain at hp
    simp only at hp
    rcases List.mem_map.1 hp with ⟨name, _, rfl⟩
    exact stats_ordered (dfColumn df name)
  · exact stats_ordered (dfColumn df target)

/-- Witness for C8: a concrete consequence at the tiny frame. -/
theorem trainMain_stats_ordered_witness :
    (trainMain dfEx 0 fitEx).2.targetStats.min
      ≤ (trainMain dfEx 0 fitEx).2.targetStats.median :=
  (trainMain_stats_ordered dfEx 0 fitEx).2.1

/-- C10: `meta.json`'s `featureNames` is the training frame's column list
without the target, in column order; the column set the tree is fitted on
carries exactly those names in the same order; and every `featureIndex` in
`tree.json` indexes `featureNames`, with the node's `feature` name equal to
`featureNames[featureIndex]` (for a well-formed fitted tree). -/
theorem trainMain_feature_names_consistent [DecidableEq ν] (df : List (ν × List Rat))
    (target : ν) (fit : List (ν × List Rat) → List Rat → SkTree)
    (hwf : (fit (df.filter (fun c => decide (c.1 ≠ target)))
        (dfColumn df target)).WellFormed
        ((df.map Prod.fst).filter (fun s => decide (s ≠ target))).length) :
    ((trainMain df target fit).2.featureNames
        = (df.map Prod.fst).filter (fun s => decide (s ≠ target)))
    ∧ ((df.filter (fun c => decide (c.1 ≠ target))).map Prod.fst
        = (trainMain df target fit).2.featureNames)
    ∧ (∀ d ∈ (trainMain df target fit).1.nodes, ∀ fi, d.featureIndex = some fi →
        fi < (trainMain df target fit).2.featureNames.length
        ∧ d.feature = (trainMain df target fit).2.featureNames[fi]?) := by
  refine ⟨rfl, ?_, ?_⟩
  · show (df.filter (fun c => decide (c.1 ≠ target))).map Prod.fst
        = (df.map Prod.fst).filter (fun s => decide (s ≠ target))
    rw [List.filter_map]
    rfl
  · intro d hd fi hfi
    have hnodes : (trainMain df target fit).1.nodes
        = (export_tree_json (fit (df.filter (fun c => decide (c.1 ≠ target)))
            (dfColumn df target))
            ((df.map Prod.fst).filter (fun s => decide (s ≠ target)))).nodes := rfl
    rw [hnodes] at hd
    rcases mem_export_nodes hd with ⟨i, hi, rfl⟩
    set sk := fit (df.filter (fun c => decide (c.1 ≠ target))) (dfColumn df target) with hsk
    set names := (df.map Prod.fst).filter (fun s => decide (s ≠ target)) with hnames
    unfold node_dict at hfi ⊢
    by_cases hleaf : sk.children_left i = sk.children_right i
    · rw [if_pos hleaf] at hfi
      simp at hfi
    · rw [if_neg hleaf] at hfi ⊢
      simp only [Option.some.injEq] at hfi
      subst hfi
      exact ⟨hwf i hi hleaf, rfl⟩

/-- Witness for C10: the tiny frame with the constant fitting routine. -/
theorem trainMain_feature_names_consistent_witness :
    ((trainMain dfEx 0 fitEx).2.featureNames
        = (dfEx.map Prod.fst).filter (fun s => decide (s ≠ 0)))
    ∧ ((dfEx.filter (fun c => decide (c.1 ≠ 0))).map Prod.fst
        = (trainMain dfEx 0 fitEx).2.featureNames)
    ∧ (∀ d ∈ (trainMain dfEx 0 fitEx).1.nodes, ∀ fi, d.featureIndex = some fi →
        fi < (trainMain dfEx 0 fitEx).2.featureNames.length
        ∧ d.feature = (trainMain dfEx 0 fitEx).2.featureNames[fi]?) :=
  trainMain_feature_names_consistent dfEx 0 fitEx (by
    intro i hi hne
    show skTreeEx.feature i < 1
    simp [skTreeEx])

end RegTree

